import Mathlib

/-!
Verification of the market-phase (bull/bear regime) segmenter
`identify_market_phases` from `src/app.py` (lines 325-379) of the
Brent-oil dashboard repository.

The Python function scans a price series with mutable locals
`in_bull`, `in_bear`, `start_idx`, `peak`, `trough`, appending closed
regimes to `bull_markets` / `bear_markets`, and force-closes the open
regime after the loop.  We embed it shallowly: prices and timestamps
are rationals, the series is a list of samples, the loop is a `foldl`
of a `step` function over `List.range' 1 (n-1)` (the Python
`range(1, len(series))`), and the emitted 7-tuples become `Regime`
records.  An empty series makes the Python code raise `IndexError`
on `series.iloc[0]`; that failure is modelled as `none`.
-/

namespace BrentPhases

/-- A sample of the input series: a timestamp (the pandas index entry)
and a price.  Both are rationals in the embedding. -/
structure Sample where
  ts : ℚ
  price : ℚ
deriving DecidableEq, Repr

/-- One emitted regime, the shallow embedding of the 7-tuple
`(start_idx, end_idx, series.index[start_idx], series.index[end_idx],
ref_before, ref_after, percent_move)` appended by the Python code.
For a bull regime the code appends `(.., trough, peak, (peak-trough)/trough)`,
for a bear regime `(.., peak, trough, (trough-peak)/peak)`; in the spec's
data-model vocabulary the 5th component is `reference_price_before` and the
6th `reference_price_after` in both cases. -/
structure Regime where
  start_idx : Nat
  end_idx : Nat
  start_time : ℚ
  end_time : ℚ
  ref_before : ℚ
  ref_after : ℚ
  percent_move : ℚ
deriving DecidableEq, Repr

/-- The mutable locals of the Python scan. -/
structure PhaseState where
  bulls : List Regime
  bears : List Regime
  in_bull : Bool
  in_bear : Bool
  start_idx : Nat
  peak : ℚ
  trough : ℚ
deriving DecidableEq, Repr

/-- Price access, the embedding of `series.iloc[i]` (total function;
the scan only uses indices that are in bounds). -/
def priceAt (ser : List Sample) (i : Nat) : ℚ :=
  (ser.getD i { ts := 0, price := 0 }).price

/-- Timestamp access, the embedding of `series.index[i]`. -/
def tsAt (ser : List Sample) (i : Nat) : ℚ :=
  (ser.getD i { ts := 0, price := 0 }).ts

/-- The bull 7-tuple appended by the code
(`app.py` lines 356-357 and 373-374): ends at index `e`,
`ref_before = trough`, `ref_after = peak`,
`percent_move = (peak - trough) / trough`. -/
def bullRegime (ser : List Sample) (s : PhaseState) (e : Nat) : Regime :=
  { start_idx := s.start_idx, end_idx := e,
    start_time := tsAt ser s.start_idx, end_time := tsAt ser e,
    ref_before := s.trough, ref_after := s.peak,
    percent_move := (s.peak - s.trough) / s.trough }

/-- The bear 7-tuple appended by the code
(`app.py` lines 343-344 and 376-377): ends at index `e`,
`ref_before = peak`, `ref_after = trough`,
`percent_move = (trough - peak) / peak`. -/
def bearRegime (ser : List Sample) (s : PhaseState) (e : Nat) : Regime :=
  { start_idx := s.start_idx, end_idx := e,
    start_time := tsAt ser s.start_idx, end_time := tsAt ser e,
    ref_before := s.peak, ref_after := s.trough,
    percent_move := (s.trough - s.peak) / s.peak }

/-- One iteration of the Python `for i in range(1, len(series))` body
(`app.py` lines 336-369), translated clause by clause:
first the bull-entry check (closing an open bear regime), `elif` the
bear-entry check (closing an open bull regime), then the
peak/trough update on the possibly transitioned state. -/
def step (ser : List Sample) (th : ℚ) (s : PhaseState) (i : Nat) : PhaseState :=
  let p := priceAt ser i
  let s1 :=
    if s.in_bull = false ∧ s.trough * (1 + th) ≤ p then
      let s2 :=
        if s.in_bear = true then
          { s with bears := s.bears ++ [bearRegime ser s (i - 1)], in_bear := false }
        else s
      { s2 with in_bull := true, start_idx := i, trough := p }
    else if s.in_bear = false ∧ p ≤ s.peak * (1 - th) then
      let s2 :=
        if s.in_bull = true then
          { s with bulls := s.bulls ++ [bullRegime ser s (i - 1)], in_bull := false }
        else s
      { s2 with in_bear := true, start_idx := i, peak := p }
    else s
  if s1.in_bull = true ∧ s1.peak < p then { s1 with peak := p }
  else if s1.in_bear = true ∧ p < s1.trough then { s1 with trough := p }
  else s1

/-- The initial values of the scan locals (`app.py` lines 329-334):
no regime open, `start_idx = 0`, `peak = trough = series.iloc[0]`. -/
def initState (s0 : Sample) : PhaseState :=
  { bulls := [], bears := [], in_bull := false, in_bear := false,
    start_idx := 0, peak := s0.price, trough := s0.price }

/-- The state of the scan locals after processing loop indices
`1, 2, ..., k`. -/
def scanLen (ser : List Sample) (th : ℚ) (s0 : Sample) (k : Nat) : PhaseState :=
  (List.range' 1 k).foldl (step ser th) (initState s0)

/-- The post-loop force-close (`app.py` lines 371-377): if a bull
(resp. bear) regime is still open it is emitted with
`end_idx = len(series) - 1` and `end_time = series.index[-1]`. -/
def finalize (ser : List Sample) (s : PhaseState) : List Regime × List Regime :=
  if s.in_bull = true then
    (s.bulls ++ [bullRegime ser s (ser.length - 1)], s.bears)
  else if s.in_bear = true then
    (s.bulls, s.bears ++ [bearRegime ser s (ser.length - 1)])
  else (s.bulls, s.bears)

/-- The whole function `identify_market_phases(series, threshold)`
(`app.py` lines 325-379).  On the empty series the Python code raises
`IndexError` at `series.iloc[0]` before any sample is processed; this
failure is modelled as `none`.  On a non-empty series the function
always returns a pair of regime lists. -/
def identify_market_phases (series : List Sample) (th : ℚ) :
    Option (List Regime × List Regime) :=
  match series with
  | [] => none
  | s0 :: rest =>
      some (finalize (s0 :: rest) (scanLen (s0 :: rest) th s0 rest.length))

/-! ## The scan invariant

`h` is the chronological list of regimes emitted so far, each tagged
with `true` (bull) or `false` (bear).  The code appends a bull regime
only to `bull_markets` and a bear regime only to `bear_markets`, so the
two output lists are the two filters of `h`. -/

/-- The bull entries of a tagged emission history, in order. -/
def bullsOf (h : List (Bool × Regime)) : List Regime :=
  (h.filter fun e => e.1).map Prod.snd

/-- The bear entries of a tagged emission history, in order. -/
def bearsOf (h : List (Bool × Regime)) : List Regime :=
  (h.filter fun e => !e.1).map Prod.snd

/-- Well-formedness of the emission history after the scan has
processed loop indices `1..k`: regimes are disjoint and sorted,
kinds alternate, indices are in `[1, k]`, and every regime's fields
are determined by the scan variables at its closing step. -/
structure HistOK (ser : List Sample) (k : Nat) (h : List (Bool × Regime)) : Prop where
  sorted : h.Pairwise fun a b => a.2.end_idx < b.2.start_idx
  alt : h.Chain' fun a b => a.1 ≠ b.1
  wf : ∀ e ∈ h, 1 ≤ e.2.start_idx ∧ e.2.start_idx ≤ e.2.end_idx ∧ e.2.end_idx ≤ k
  pm : ∀ e ∈ h, e.2.percent_move = (e.2.ref_after - e.2.ref_before) / e.2.ref_before
  refb : ∀ e ∈ h, e.2.ref_before = priceAt ser e.2.start_idx
  tms : ∀ e ∈ h, e.2.start_time = tsAt ser e.2.start_idx ∧ e.2.end_time = tsAt ser e.2.end_idx
  mono : ∀ e ∈ h, (e.1 = true → e.2.ref_before ≤ e.2.ref_after) ∧
    (e.1 = false → e.2.ref_after ≤ e.2.ref_before)
  extr : ∀ e ∈ h, ∀ j, e.2.start_idx ≤ j → j ≤ e.2.end_idx →
    (e.1 = true → priceAt ser j ≤ e.2.ref_after) ∧
    (e.1 = false → e.2.ref_after ≤ priceAt ser j)

/-- Full invariant of the scan state after processing loop indices
`1..k`, relative to an emission history `h`. -/
structure InvH (ser : List Sample) (k : Nat) (s : PhaseState) (h : List (Bool × Regime)) :
    Prop where
  histOK : HistOK ser k h
  bullsEq : s.bulls = bullsOf h
  bearsEq : s.bears = bearsOf h
  excl : ¬(s.in_bull = true ∧ s.in_bear = true)
  tple : s.trough ≤ s.peak
  openLink : s.in_bull = true ∨ s.in_bear = true →
    1 ≤ s.start_idx ∧ s.start_idx ≤ k ∧ (∀ e ∈ h, e.2.end_idx < s.start_idx) ∧
    (∀ e, h.getLast? = some e → e.1 ≠ s.in_bull)
  openTrough : s.in_bull = true → s.trough = priceAt ser s.start_idx
  openPeak : s.in_bear = true → s.peak = priceAt ser s.start_idx
  openHigh : s.in_bull = true → ∀ j, s.start_idx ≤ j → j ≤ k → priceAt ser j ≤ s.peak
  openLow : s.in_bear = true → ∀ j, s.start_idx ≤ j → j ≤ k → s.trough ≤ priceAt ser j
  atNone : s.in_bull = false → s.in_bear = false →
    h = [] ∧ s.peak = priceAt ser 0 ∧ s.trough = priceAt ser 0

/-! ## The specification state machine (for the refinement claim)

The spec (section 4.1) describes the same loop with a single
three-valued mode instead of the code's two booleans.  `specStep` is
modelled from the spec: transition rule 1 (bull entry, closing an open
bear regime) is evaluated before rule 2 (bear entry, closing an open
bull regime); both compare against the trough/peak held at the start
of the step; rule 3 (extremum tracking) always runs afterwards on the
possibly transitioned mode. -/

/-- The spec's segmenter mode: `None`, `InBull` or `InBear`. -/
inductive Mode where
  | noReg : Mode
  | inBull : Mode
  | inBear : Mode
deriving DecidableEq, Repr

/-- The spec's transient segmenter state plus the regimes emitted so
far. -/
structure SpecState where
  mode : Mode
  peak : ℚ
  trough : ℚ
  start_idx : Nat
  bulls : List Regime
  bears : List Regime
deriving DecidableEq, Repr

/-- Modelled from the spec: one evaluation of transition rules 1-3 of
section 4.1 at sample `i`. -/
def specStep (ser : List Sample) (th : ℚ) (s : SpecState) (i : Nat) : SpecState :=
  let p := priceAt ser i
  let s1 :=
    if s.mode ≠ Mode.inBull ∧ s.trough * (1 + th) ≤ p then
      let s2 :=
        if s.mode = Mode.inBear then
          { s with bears := s.bears ++
              [{ start_idx := s.start_idx, end_idx := i - 1,
                 start_time := tsAt ser s.start_idx, end_time := tsAt ser (i - 1),
                 ref_before := s.peak, ref_after := s.trough,
                 percent_move := (s.trough - s.peak) / s.peak }] }
        else s
      { s2 with mode := Mode.inBull, start_idx := i, trough := p }
    else if s.mode ≠ Mode.inBear ∧ p ≤ s.peak * (1 - th) then
      let s2 :=
        if s.mode = Mode.inBull then
          { s with bulls := s.bulls ++
              [{ start_idx := s.start_idx, end_idx := i - 1,
                 start_time := tsAt ser s.start_idx, end_time := tsAt ser (i - 1),
                 ref_before := s.trough, ref_after := s.peak,
                 percent_move := (s.peak - s.trough) / s.trough }] }
        else s
      { s2 with mode := Mode.inBear, start_idx := i, peak := p }
    else s
  if s1.mode = Mode.inBull ∧ s1.peak < p then { s1 with peak := p }
  else if s1.mode = Mode.inBear ∧ p < s1.trough then { s1 with trough := p }
  else s1

/-- The correspondence from the code's two booleans to the spec's
single mode (the code never has both booleans set). -/
def absState (s : PhaseState) : SpecState :=
  { mode := if s.in_bull = true then Mode.inBull
            else if s.in_bear = true then Mode.inBear else Mode.noReg,
    peak := s.peak, trough := s.trough, start_idx := s.start_idx,
    bulls := s.bulls, bears := s.bears }

/-! ## Concrete scenario series used in statements below -/

/-- The spec scenario `[100, 100, 100]` (no movement). -/
def serFlat : List Sample := [⟨0, 100⟩, ⟨1, 100⟩, ⟨2, 100⟩]

/-- The spec scenario `[100, 121, 121]`. -/
def serJump : List Sample := [⟨0, 100⟩, ⟨1, 121⟩, ⟨2, 121⟩]

/-- A drop to 50 followed by a bull trigger at 65: the bull regime
inherits the stale peak 80 from the preceding bear regime. -/
def serCarry : List Sample := [⟨0, 100⟩, ⟨1, 80⟩, ⟨2, 50⟩, ⟨3, 65⟩]

/-- The spec scenario `[100, 121, 95]`: a bull regime closed by a bear
trigger. -/
def serUpDown : List Sample := [⟨0, 100⟩, ⟨1, 121⟩, ⟨2, 95⟩]

/-- A single upward jump. -/
def serUp : List Sample := [⟨0, 100⟩, ⟨1, 130⟩]

/-- A flat two-sample series (used with threshold 0). -/
def serFlat0 : List Sample := [⟨0, 100⟩, ⟨1, 100⟩]

/-- A series whose timestamps decrease. -/
def serBackTs : List Sample := [⟨5, 100⟩, ⟨3, 130⟩]

/-- A one-sample series. -/
def serOne : List Sample := [⟨0, 100⟩]

theorem bullsOf_append_bull (h : List (Bool × Regime)) (r : Regime) :
    bullsOf (h ++ [(true, r)]) = bullsOf h ++ [r] := by
  simp [bullsOf, List.filter_append]

theorem bearsOf_append_bull (h : List (Bool × Regime)) (r : Regime) :
    bearsOf (h ++ [(true, r)]) = bearsOf h := by
  simp [bearsOf, List.filter_append]

theorem bullsOf_append_bear (h : List (Bool × Regime)) (r : Regime) :
    bullsOf (h ++ [(false, r)]) = bullsOf h := by
  simp [bullsOf, List.filter_append]

theorem bearsOf_append_bear (h : List (Bool × Regime)) (r : Regime) :
    bearsOf (h ++ [(false, r)]) = bearsOf h ++ [r] := by
  simp [bearsOf, List.filter_append]

theorem HistOK.weaken {ser : List Sample} {k k2 : Nat} {h : List (Bool × Regime)}
    (hk : k ≤ k2) (H : HistOK ser k h) : HistOK ser k2 h :=
  { H with wf := fun e he => ⟨(H.wf e he).1, (H.wf e he).2.1, (H.wf e he).2.2.trans hk⟩ }

/-- Appending one more closed regime to a well-formed history keeps it
well formed, provided the new regime starts after every old one ends,
has the opposite kind of the last old one, and satisfies the per-regime
facts. -/
theorem HistOK.extend {ser : List Sample} {k : Nat} {h : List (Bool × Regime)}
    (H : HistOK ser k h) (b : Bool) (r : Regime)
    (hlast : ∀ e, h.getLast? = some e → e.1 ≠ b)
    (hend : ∀ e ∈ h, e.2.end_idx < r.start_idx)
    (h1 : 1 ≤ r.start_idx) (h2 : r.start_idx ≤ r.end_idx) (h3 : r.end_idx ≤ k)
    (hpm : r.percent_move = (r.ref_after - r.ref_before) / r.ref_before)
    (hrefb : r.ref_before = priceAt ser r.start_idx)
    (htms : r.start_time = tsAt ser r.start_idx ∧ r.end_time = tsAt ser r.end_idx)
    (hmono : (b = true → r.ref_before ≤ r.ref_after) ∧ (b = false → r.ref_after ≤ r.ref_before))
    (hextr : ∀ j, r.start_idx ≤ j → j ≤ r.end_idx →
      (b = true → priceAt ser j ≤ r.ref_after) ∧ (b = false → r.ref_after ≤ priceAt ser j)) :
    HistOK ser k (h ++ [(b, r)]) := by
  constructor
  · refine List.pairwise_append.2 ⟨H.sorted, List.pairwise_singleton _ _, ?_⟩
    intro a ha c hc
    have : c = (b, r) := by simpa using hc
    subst this
    exact hend a ha
  · refine List.chain'_append.2 ⟨H.alt, List.chain'_singleton _, ?_⟩
    intro x hx y hy
    have : y = (b, r) := by simpa using hy.symm
    subst this
    exact hlast x hx
  all_goals
    intro e he
    rcases List.mem_append.1 he with he' | he'
  · exact H.wf e he'
  · have : e = (b, r) := by simpa using he'
    subst this; exact ⟨h1, h2, h3⟩
  · exact H.pm e he'
  · have : e = (b, r) := by simpa using he'
    subst this; exact hpm
  · exact H.refb e he'
  · have : e = (b, r) := by simpa using he'
    subst this; exact hrefb
  · exact H.tms e he'
  · have : e = (b, r) := by simpa using he'
    subst this; exact htms
  · exact H.mono e he'
  · have : e = (b, r) := by simpa using he'
    subst this; exact hmono
  · exact H.extr e he'
  · have : e = (b, r) := by simpa using he'
    subst this; exact hextr

/-! ## Closed forms of the loop body, one per reachable branch -/

theorem step_bull_from_none (ser : List Sample) (th : ℚ) (i : Nat) (s : PhaseState)
    (h1 : s.in_bull = false) (h2 : s.in_bear = false)
    (h3 : s.trough * (1 + th) ≤ priceAt ser i) :
    step ser th s i =
      { s with in_bull := true, start_idx := i, trough := priceAt ser i,
               peak := if s.peak < priceAt ser i then priceAt ser i else s.peak } := by
  by_cases hc : s.peak < priceAt ser i <;>
    simp only [step, h1, h2, h3, hc, and_true, true_and, false_and, and_false,
      if_true, if_false, reduceIte, Bool.false_eq_true, Bool.true_eq_false,
      reduceCtorEq, not_false_iff, iff_true, iff_false]

theorem step_bull_from_bear (ser : List Sample) (th : ℚ) (i : Nat) (s : PhaseState)
    (h1 : s.in_bull = false) (h2 : s.in_bear = true)
    (h3 : s.trough * (1 + th) ≤ priceAt ser i) :
    step ser th s i =
      { s with bears := s.bears ++ [bearRegime ser s (i - 1)], in_bear := false,
               in_bull := true, start_idx := i, trough := priceAt ser i,
               peak := if s.peak < priceAt ser i then priceAt ser i else s.peak } := by
  by_cases hc : s.peak < priceAt ser i <;>
    simp only [step, h1, h2, h3, hc, and_true, true_and, false_and, and_false,
      if_true, if_false, reduceIte, Bool.false_eq_true, Bool.true_eq_false,
      reduceCtorEq, not_false_iff, iff_true, iff_false]

theorem step_bear_from_none (ser : List Sample) (th : ℚ) (i : Nat) (s : PhaseState)
    (h1 : s.in_bull = false) (h2 : s.in_bear = false)
    (h3 : ¬ s.trough * (1 + th) ≤ priceAt ser i)
    (h4 : priceAt ser i ≤ s.peak * (1 - th)) :
    step ser th s i =
      { s with in_bear := true, start_idx := i, peak := priceAt ser i,
               trough := if priceAt ser i < s.trough then priceAt ser i else s.trough } := by
  by_cases hc : priceAt ser i < s.trough <;>
    simp only [step, h1, h2, h3, h4, hc, and_true, true_and, false_and, and_false,
      if_true, if_false, reduceIte, Bool.false_eq_true, Bool.true_eq_false,
      reduceCtorEq, not_false_iff, iff_true, iff_false]

theorem step_bear_from_bull (ser : List Sample) (th : ℚ) (i : Nat) (s : PhaseState)
    (h1 : s.in_bull = true) (h2 : s.in_bear = false)
    (h4 : priceAt ser i ≤ s.peak * (1 - th)) :
    step ser th s i =
      { s with bulls := s.bulls ++ [bullRegime ser s (i - 1)], in_bull := false,
               in_bear := true, start_idx := i, peak := priceAt ser i,
               trough := if priceAt ser i < s.trough then priceAt ser i else s.trough } := by
  by_cases hc : priceAt ser i < s.trough <;>
    simp only [step, h1, h2, h4, hc, and_true, true_and, false_and, and_false,
      if_true, if_false, reduceIte, Bool.false_eq_true, Bool.true_eq_false,
      reduceCtorEq, not_false_iff, iff_true, iff_false]

theorem step_stay_bull (ser : List Sample) (th : ℚ) (i : Nat) (s : PhaseState)
    (h1 : s.in_bull = true) (h2 : s.in_bear = false)
    (h4 : ¬ priceAt ser i ≤ s.peak * (1 - th)) :
    step ser th s i =
      { s with peak := if s.peak < priceAt ser i then priceAt ser i else s.peak } := by
  by_cases hc : s.peak < priceAt ser i <;>
    simp only [step, h1, h2, h4, hc, and_true, true_and, false_and, and_false,
      if_true, if_false, reduceIte, Bool.false_eq_true, Bool.true_eq_false,
      reduceCtorEq, not_false_iff, iff_true, iff_false]
  rw [← h1, ← h2]

theorem step_stay_bear (ser : List Sample) (th : ℚ) (i : Nat) (s : PhaseState)
    (h1 : s.in_bull = false) (h2 : s.in_bear = true)
    (h3 : ¬ s.trough * (1 + th) ≤ priceAt ser i) :
    step ser th s i =
      { s with trough := if priceAt ser i < s.trough then priceAt ser i else s.trough } := by
  by_cases hc : priceAt ser i < s.trough <;>
    simp only [step, h1, h2, h3, hc, and_true, true_and, false_and, and_false,
      if_true, if_false, reduceIte, Bool.false_eq_true, Bool.true_eq_false,
      reduceCtorEq, not_false_iff, iff_true, iff_false]
  rw [← h1, ← h2]

theorem step_stay_none (ser : List Sample) (th : ℚ) (i : Nat) (s : PhaseState)
    (h1 : s.in_bull = false) (h2 : s.in_bear = false)
    (h3 : ¬ s.trough * (1 + th) ≤ priceAt ser i)
    (h4 : ¬ priceAt ser i ≤ s.peak * (1 - th)) :
    step ser th s i = s := by
  simp only [step, h1, h2, h3, h4, and_true, true_and, and_false, false_and, if_false,
    reduceIte, Bool.false_eq_true]

/-! ## Invariant preservation -/

theorem min_if_le_left (a b : ℚ) : (if a < b then a else b) ≤ a := by
  split
  · exact le_rfl
  · exact le_of_not_lt (by assumption)

theorem min_if_le_right (a b : ℚ) : (if a < b then a else b) ≤ b := by
  split
  · exact le_of_lt (by assumption)
  · exact le_rfl

theorem le_max_if_left (a b : ℚ) : a ≤ if a < b then b else a := by
  split
  · exact le_of_lt (by assumption)
  · exact le_rfl

theorem le_max_if_right (a b : ℚ) : b ≤ if a < b then b else a := by
  split
  · exact le_rfl
  · exact le_of_not_lt (by assumption)

theorem bool_absurd {b : Bool} {C : Prop} (h1 : b = false) (h2 : b = true) : C :=
  Bool.noConfusion (h1 ▸ h2)

/-- The loop body preserves the scan invariant: processing loop index
`k + 1` turns an invariant state for `1..k` into one for `1..k+1`. -/
theorem step_inv {ser : List Sample} {th : ℚ} {k : Nat} {s : PhaseState}
    {h : List (Bool × Regime)} (I : InvH ser k s h) :
    ∃ h2, InvH ser (k + 1) (step ser th s (k + 1)) h2 := by
  have hone : 1 ≤ k + 1 := Nat.succ_le_succ (Nat.zero_le k)
  by_cases hbull : s.in_bull = true
  · have hbear : s.in_bear = false := by
      cases hbe : s.in_bear
      · rfl
      · exact absurd ⟨hbull, hbe⟩ I.excl
    obtain ⟨hs1, hs2, hs3, hs4⟩ := I.openLink (Or.inl hbull)
    by_cases hcond : priceAt ser (k + 1) ≤ s.peak * (1 - th)
    · -- the open bull regime closes at k and a bear regime opens at k+1
      rw [step_bear_from_bull ser th (k + 1) s hbull hbear hcond, Nat.add_sub_cancel]
      refine ⟨h ++ [(true, bullRegime ser s k)], ?_, ?_, ?_, ?_, ?_, ?_, ?_, ?_, ?_, ?_, ?_⟩
      · exact (I.histOK.weaken (Nat.le_succ k)).extend true (bullRegime ser s k)
          (fun e he => hbull ▸ hs4 e he) hs3 hs1 hs2 (Nat.le_succ k) rfl
          (I.openTrough hbull) ⟨rfl, rfl⟩
          ⟨fun _ => I.tple, fun hf => Bool.noConfusion hf⟩
          (fun j hj1 hj2 =>
            ⟨fun _ => I.openHigh hbull j hj1 hj2, fun hf => Bool.noConfusion hf⟩)
      · rw [bullsOf_append_bull, ← I.bullsEq]
      · rw [bearsOf_append_bull]; exact I.bearsEq
      · simp
      · exact min_if_le_left _ _
      · refine fun _ => ⟨hone, le_rfl, ?_, ?_⟩
        · intro e he
          rcases List.mem_append.1 he with he' | he'
          · exact Nat.lt_of_lt_of_le (hs3 e he') (hs2.trans (Nat.le_succ k))
          · have : e = (true, bullRegime ser s k) := by simpa using he'
            subst this; exact Nat.lt_succ_self k
        · intro e he
          rw [List.getLast?_concat] at he
          have : e = (true, bullRegime ser s k) := by injection he with h'; exact h'.symm
          subst this
          exact fun hf => Bool.noConfusion hf
      · exact fun hf => Bool.noConfusion hf
      · exact fun _ => rfl
      · exact fun hf => Bool.noConfusion hf
      · intro _ j hj1 hj2
        have : j = k + 1 := Nat.le_antisymm hj2 hj1
        subst this
        exact min_if_le_left _ _
      · exact fun _ hf => Bool.noConfusion hf
    · -- the bull regime stays open; only the running peak may rise
      rw [step_stay_bull ser th (k + 1) s hbull hbear hcond]
      refine ⟨h, ?_, I.bullsEq, I.bearsEq, I.excl, ?_, ?_, ?_, ?_, ?_, ?_, ?_⟩
      · exact I.histOK.weaken (Nat.le_succ k)
      · exact I.tple.trans (le_max_if_left _ _)
      · exact fun hor => ⟨hs1, hs2.trans (Nat.le_succ k), hs3, hs4⟩
      · exact fun _ => I.openTrough hbull
      · exact fun hf => bool_absurd hbear hf
      · intro _ j hj1 hj2
        rcases Nat.le_add_one_iff.1 hj2 with hj | hj
        · exact (I.openHigh hbull j hj1 hj).trans (le_max_if_left _ _)
        · subst hj; exact le_max_if_right _ _
      · exact fun hf => bool_absurd hbear hf
      · exact fun hf => bool_absurd hf hbull
  · have hbf : s.in_bull = false := by
      cases hb2 : s.in_bull
      · rfl
      · exact absurd hb2 hbull
    by_cases hbear : s.in_bear = true
    · obtain ⟨hs1, hs2, hs3, hs4⟩ := I.openLink (Or.inr hbear)
      by_cases hcond : s.trough * (1 + th) ≤ priceAt ser (k + 1)
      · -- the open bear regime closes at k and a bull regime opens at k+1
        rw [step_bull_from_bear ser th (k + 1) s hbf hbear hcond, Nat.add_sub_cancel]
        refine ⟨h ++ [(false, bearRegime ser s k)], ?_, ?_, ?_, ?_, ?_, ?_, ?_, ?_, ?_, ?_, ?_⟩
        · exact (I.histOK.weaken (Nat.le_succ k)).extend false (bearRegime ser s k)
            (fun e he => hbf ▸ hs4 e he) hs3 hs1 hs2 (Nat.le_succ k) rfl
            (I.openPeak hbear) ⟨rfl, rfl⟩
            ⟨fun hf => Bool.noConfusion hf, fun _ => I.tple⟩
            (fun j hj1 hj2 =>
              ⟨fun hf => Bool.noConfusion hf, fun _ => I.openLow hbear j hj1 hj2⟩)
        · rw [bullsOf_append_bear]; exact I.bullsEq
        · rw [bearsOf_append_bear, ← I.bearsEq]
        · simp
        · exact le_max_if_right _ _
        · refine fun _ => ⟨hone, le_rfl, ?_, ?_⟩
          · intro e he
            rcases List.mem_append.1 he with he' | he'
            · exact Nat.lt_of_lt_of_le (hs3 e he') (hs2.trans (Nat.le_succ k))
            · have : e = (false, bearRegime ser s k) := by simpa using he'
              subst this; exact Nat.lt_succ_self k
          · intro e he
            rw [List.getLast?_concat] at he
            have : e = (false, bearRegime ser s k) := by injection he with h'; exact h'.symm
            subst this
            exact fun hf => Bool.noConfusion hf
        · exact fun _ => rfl
        · exact fun hf => Bool.noConfusion hf
        · intro _ j hj1 hj2
          have : j = k + 1 := Nat.le_antisymm hj2 hj1
          subst this
          exact le_max_if_right _ _
        · exact fun hf => Bool.noConfusion hf
        · exact fun hf _ => Bool.noConfusion hf
      · -- the bear regime stays open; only the running trough may fall
        rw [step_stay_bear ser th (k + 1) s hbf hbear hcond]
        refine ⟨h, ?_, I.bullsEq, I.bearsEq, I.excl, ?_, ?_, ?_, ?_, ?_, ?_, ?_⟩
        · exact I.histOK.weaken (Nat.le_succ k)
        · exact (min_if_le_right _ _).trans I.tple
        · exact fun hor => ⟨hs1, hs2.trans (Nat.le_succ k), hs3, hs4⟩
        · exact fun hf => bool_absurd hbf hf
        · exact fun _ => I.openPeak hbear
        · exact fun hf => bool_absurd hbf hf
        · intro _ j hj1 hj2
          rcases Nat.le_add_one_iff.1 hj2 with hj | hj
          · exact (min_if_le_right _ _).trans (I.openLow hbear j hj1 hj)
          · subst hj; exact min_if_le_left _ _
        · exact fun _ hf => bool_absurd hf hbear
    · have hbef : s.in_bear = false := by
        cases hb2 : s.in_bear
        · rfl
        · exact absurd hb2 hbear
      obtain ⟨hnil, hpk0, htr0⟩ := I.atNone hbf hbef
      subst hnil
      by_cases hcond : s.trough * (1 + th) ≤ priceAt ser (k + 1)
      · -- first trigger: a bull regime opens at k+1
        rw [step_bull_from_none ser th (k + 1) s hbf hbef hcond]
        refine ⟨[], ?_, I.bullsEq, I.bearsEq, ?_, ?_, ?_, ?_, ?_, ?_, ?_, ?_⟩
        · exact I.histOK.weaken (Nat.le_succ k)
        · simp [hbef]
        · exact le_max_if_right _ _
        · refine fun _ => ⟨hone, le_rfl, ?_, ?_⟩
          · intro e he; exact absurd he (List.not_mem_nil e)
          · intro e he; exact absurd he (by simp)
        · exact fun _ => rfl
        · exact fun hf => bool_absurd hbef hf
        · intro _ j hj1 hj2
          have : j = k + 1 := Nat.le_antisymm hj2 hj1
          subst this
          exact le_max_if_right _ _
        · exact fun hf => bool_absurd hbef hf
        · exact fun hf _ => Bool.noConfusion hf
      · by_cases hcond2 : priceAt ser (k + 1) ≤ s.peak * (1 - th)
        · -- first trigger: a bear regime opens at k+1
          rw [step_bear_from_none ser th (k + 1) s hbf hbef hcond hcond2]
          refine ⟨[], ?_, I.bullsEq, I.bearsEq, ?_, ?_, ?_, ?_, ?_, ?_, ?_, ?_⟩
          · exact I.histOK.weaken (Nat.le_succ k)
          · simp [hbf]
          · exact min_if_le_left _ _
          · refine fun _ => ⟨hone, le_rfl, ?_, ?_⟩
            · intro e he; exact absurd he (List.not_mem_nil e)
            · intro e he; exact absurd he (by simp)
          · exact fun hf => bool_absurd hbf hf
          · exact fun _ => rfl
          · exact fun hf => bool_absurd hbf hf
          · intro _ j hj1 hj2
            have : j = k + 1 := Nat.le_antisymm hj2 hj1
            subst this
            exact min_if_le_left _ _
          · exact fun _ hf => Bool.noConfusion hf
        · -- no trigger yet: the state is unchanged
          rw [step_stay_none ser th (k + 1) s hbf hbef hcond hcond2]
          refine ⟨[], ?_, I.bullsEq, I.bearsEq, I.excl, I.tple, ?_, I.openTrough,
            I.openPeak, ?_, ?_, ?_⟩
          · exact I.histOK.weaken (Nat.le_succ k)
          · exact fun hor => by
              rcases hor with hf | hf
              · exact bool_absurd hbf hf
              · exact bool_absurd hbef hf
          · exact fun hf => bool_absurd hbf hf
          · exact fun hf => bool_absurd hbef hf
          · exact fun _ _ => ⟨rfl, hpk0, htr0⟩

/-- The invariant holds before the loop starts. -/
theorem init_inv (s0 : Sample) (rest : List Sample) :
    InvH (s0 :: rest) 0 (initState s0) [] := by
  refine ⟨?_, rfl, rfl, ?_, le_rfl, ?_, ?_, ?_, ?_, ?_, ?_⟩
  · exact ⟨List.Pairwise.nil, List.chain'_nil,
      fun e he => absurd he (List.not_mem_nil e),
      fun e he => absurd he (List.not_mem_nil e),
      fun e he => absurd he (List.not_mem_nil e),
      fun e he => absurd he (List.not_mem_nil e),
      fun e he => absurd he (List.not_mem_nil e),
      fun e he => absurd he (List.not_mem_nil e)⟩
  · exact fun hx => Bool.noConfusion hx.1
  · intro hor
    rcases hor with hf | hf <;> exact Bool.noConfusion hf
  · exact fun hf => Bool.noConfusion hf
  · exact fun hf => Bool.noConfusion hf
  · exact fun hf => Bool.noConfusion hf
  · exact fun hf => Bool.noConfusion hf
  · exact fun _ _ => ⟨rfl, rfl, rfl⟩

/-- Unrolling the last loop iteration. -/
theorem scanLen_succ (ser : List Sample) (th : ℚ) (s0 : Sample) (k : Nat) :
    scanLen ser th s0 (k + 1) = step ser th (scanLen ser th s0 k) (k + 1) := by
  unfold scanLen
  rw [List.range'_concat, List.foldl_append]
  simp [Nat.add_comm]

/-- The invariant holds after any number of loop iterations. -/
theorem scan_inv (s0 : Sample) (rest : List Sample) (th : ℚ) (k : Nat) :
    ∃ h, InvH (s0 :: rest) k (scanLen (s0 :: rest) th s0 k) h := by
  induction k with
  | zero => exact ⟨[], init_inv s0 rest⟩
  | succ n ih =>
      obtain ⟨h, hI⟩ := ih
      rw [scanLen_succ]
      exact step_inv hI

/-- Main structural lemma: every successful run is described by a
well-formed emission history whose two filters are exactly the two
output lists. -/
theorem phases_hist (series : List Sample) (th : ℚ) (b r : List Regime)
    (hEq : identify_market_phases series th = some (b, r)) :
    ∃ h, b = bullsOf h ∧ r = bearsOf h ∧ HistOK series (series.length - 1) h := by
  match series with
  | [] => exact absurd hEq (by simp [identify_market_phases])
  | s0 :: rest =>
    obtain ⟨h, I⟩ := scan_inv s0 rest th rest.length
    set st := scanLen (s0 :: rest) th s0 rest.length with hst
    have hEq2 : finalize (s0 :: rest) st = (b, r) := by
      rw [identify_market_phases] at hEq
      exact Option.some.inj hEq
    by_cases hbull : st.in_bull = true
    · obtain ⟨hs1, hs2, hs3, hs4⟩ := I.openLink (Or.inl hbull)
      rw [finalize, if_pos hbull] at hEq2
      injection hEq2 with hb hr
      subst hb; subst hr
      refine ⟨h ++ [(true, bullRegime (s0 :: rest) st ((s0 :: rest).length - 1))],
        ?_, ?_, ?_⟩
      · rw [bullsOf_append_bull, ← I.bullsEq]
      · rw [bearsOf_append_bull]; exact I.bearsEq
      · exact I.histOK.extend true (bullRegime (s0 :: rest) st ((s0 :: rest).length - 1))
          (fun e he => hbull ▸ hs4 e he) hs3 hs1 hs2 le_rfl rfl
          (I.openTrough hbull) ⟨rfl, rfl⟩
          ⟨fun _ => I.tple, fun hf => Bool.noConfusion hf⟩
          (fun j hj1 hj2 =>
            ⟨fun _ => I.openHigh hbull j hj1 hj2, fun hf => Bool.noConfusion hf⟩)
    · have hbf : st.in_bull = false := by
        cases hb2 : st.in_bull
        · rfl
        · exact absurd hb2 hbull
      by_cases hbear : st.in_bear = true
      · obtain ⟨hs1, hs2, hs3, hs4⟩ := I.openLink (Or.inr hbear)
        rw [finalize, if_neg (by rw [hbf]; exact Bool.noConfusion), if_pos hbear] at hEq2
        injection hEq2 with hb hr
        subst hb; subst hr
        refine ⟨h ++ [(false, bearRegime (s0 :: rest) st ((s0 :: rest).length - 1))],
          ?_, ?_, ?_⟩
        · rw [bullsOf_append_bear]; exact I.bullsEq
        · rw [bearsOf_append_bear, ← I.bearsEq]
        · exact I.histOK.extend false (bearRegime (s0 :: rest) st ((s0 :: rest).length - 1))
            (fun e he => hbf ▸ hs4 e he) hs3 hs1 hs2 le_rfl rfl
            (I.openPeak hbear) ⟨rfl, rfl⟩
            ⟨fun hf => Bool.noConfusion hf, fun _ => I.tple⟩
            (fun j hj1 hj2 =>
              ⟨fun hf => Bool.noConfusion hf, fun _ => I.openLow hbear j hj1 hj2⟩)
      · have hbef : st.in_bear = false := by
          cases hb2 : st.in_bear
          · rfl
          · exact absurd hb2 hbear
        rw [finalize, if_neg (by rw [hbf]; exact Bool.noConfusion),
          if_neg (by rw [hbef]; exact Bool.noConfusion)] at hEq2
        injection hEq2 with hb hr
        subst hb; subst hr
        exact ⟨h, I.bullsEq, I.bearsEq, I.histOK⟩

/-! ## Small helpers -/

theorem mem_bullsOf {h : List (Bool × Regime)} {g : Regime} (hm : g ∈ bullsOf h) :
    ∃ e ∈ h, e.1 = true ∧ e.2 = g := by
  obtain ⟨e, he, heq⟩ := List.mem_map.1 hm
  obtain ⟨he2, hp⟩ := List.mem_filter.1 he
  exact ⟨e, he2, hp, heq⟩

theorem mem_bearsOf {h : List (Bool × Regime)} {g : Regime} (hm : g ∈ bearsOf h) :
    ∃ e ∈ h, e.1 = false ∧ e.2 = g := by
  obtain ⟨e, he, heq⟩ := List.mem_map.1 hm
  obtain ⟨he2, hp⟩ := List.mem_filter.1 he
  refine ⟨e, he2, ?_, heq⟩
  simpa using hp

theorem priceAt_pos {series : List Sample} (hpos : ∀ smp ∈ series, 0 < smp.price)
    {j : Nat} (hj : j < series.length) : 0 < priceAt series j := by
  rw [priceAt, List.getD_eq_getElem _ _ hj]
  exact hpos _ (List.getElem_mem hj)

theorem foldl_fixed {α β : Type _} (f : β → α → β) (a : β) :
    ∀ l : List α, (∀ x ∈ l, f a x = a) → l.foldl f a = a := by
  intro l
  induction l with
  | nil => intro _; rfl
  | cons x xs ih =>
      intro hx
      rw [List.foldl_cons, hx x (by simp)]
      exact ih fun y hy => hx y (by simp [hy])

theorem length_pos_of_some {series : List Sample} {th : ℚ} {out}
    (hEq : identify_market_phases series th = some out) : 0 < series.length := by
  cases series
  · exact absurd hEq (by simp [identify_market_phases])
  · simp

/-! ## Concrete evaluations of the embedded function -/

theorem eval_serJump : identify_market_phases serJump (1 / 5) =
    some ([⟨1, 2, 1, 2, 121, 121, 0⟩], []) := by
  have h : List.range' 1 2 = [1, 2] := rfl
  simp only [serJump, identify_market_phases, scanLen, List.length_cons, List.length_nil, h,
    List.foldl, initState, step, finalize, bullRegime, bearRegime, tsAt]
  norm_num [List.getD, priceAt]

theorem eval_serCarry : identify_market_phases serCarry (1 / 5) =
    some ([⟨3, 3, 3, 3, 65, 80, 3 / 13⟩], [⟨1, 2, 1, 2, 80, 50, -(3 / 8)⟩]) := by
  have h : List.range' 1 3 = [1, 2, 3] := rfl
  simp only [serCarry, identify_market_phases, scanLen, List.length_cons, List.length_nil, h,
    List.foldl, initState, step, finalize, bullRegime, bearRegime, tsAt]
  norm_num [List.getD, priceAt]

theorem eval_serFlat : identify_market_phases serFlat (1 / 5) = some ([], []) := by
  have h : List.range' 1 2 = [1, 2] := rfl
  simp only [serFlat, identify_market_phases, scanLen, List.length_cons, List.length_nil, h,
    List.foldl, initState, step, finalize, bullRegime, bearRegime, tsAt]
  norm_num [List.getD, priceAt]

theorem eval_serUpDown : identify_market_phases serUpDown (1 / 5) =
    some ([⟨1, 1, 1, 1, 121, 121, 0⟩], [⟨2, 2, 2, 2, 95, 95, 0⟩]) := by
  have h : List.range' 1 2 = [1, 2] := rfl
  simp only [serUpDown, identify_market_phases, scanLen, List.length_cons, List.length_nil, h,
    List.foldl, initState, step, finalize, bullRegime, bearRegime, tsAt]
  norm_num [List.getD, priceAt]

theorem eval_serUp : identify_market_phases serUp (1 / 5) =
    some ([⟨1, 1, 1, 1, 130, 130, 0⟩], []) := by
  have h : List.range' 1 1 = [1] := rfl
  simp only [serUp, identify_market_phases, scanLen, List.length_cons, List.length_nil, h,
    List.foldl, initState, step, finalize, bullRegime, bearRegime, tsAt]
  norm_num [List.getD, priceAt]

theorem eval_serFlat0 : identify_market_phases serFlat0 0 =
    some ([⟨1, 1, 1, 1, 100, 100, 0⟩], []) := by
  have h : List.range' 1 1 = [1] := rfl
  simp only [serFlat0, identify_market_phases, scanLen, List.length_cons, List.length_nil, h,
    List.foldl, initState, step, finalize, bullRegime, bearRegime, tsAt]
  norm_num [List.getD, priceAt]

theorem eval_serBackTs : identify_market_phases serBackTs (1 / 5) =
    some ([⟨1, 1, 3, 3, 130, 130, 0⟩], []) := by
  have h : List.range' 1 1 = [1] := rfl
  simp only [serBackTs, identify_market_phases, scanLen, List.length_cons, List.length_nil, h,
    List.foldl, initState, step, finalize, bullRegime, bearRegime, tsAt]
  norm_num [List.getD, priceAt]

theorem eval_serOne : identify_market_phases serOne (1 / 5) = some ([], []) := rfl

/-! ## Claim theorems -/

/-- Claim C9: for every valid series and threshold, every emitted
regime's `reference_price_before` equals the price at that regime's
`start_idx`: the trough is set to the entry price when a bull regime
opens and is never updated while it stays open, and symmetrically the
peak for a bear regime. -/
theorem c9_ref_before_entry (series : List Sample) (th : ℚ) (b r : List Regime)
    (hEq : identify_market_phases series th = some (b, r)) :
    ∀ g ∈ b ++ r, g.ref_before = priceAt series g.start_idx := by
  obtain ⟨h, hb, hr, H⟩ := phases_hist series th b r hEq
  intro g hg
  rcases List.mem_append.1 hg with hg2 | hg2
  · obtain ⟨e, he, _, hee⟩ := mem_bullsOf (hb ▸ hg2)
    rw [← hee]
    exact H.refb e he
  · obtain ⟨e, he, _, hee⟩ := mem_bearsOf (hr ▸ hg2)
    rw [← hee]
    exact H.refb e he

/-- Claim C9 witness at a concrete input. -/
theorem c9_witness :
    identify_market_phases serUp (1 / 5) = some ([⟨1, 1, 1, 1, 130, 130, 0⟩], []) ∧
    (130 : ℚ) = priceAt serUp 1 :=
  ⟨eval_serUp, c9_ref_before_entry serUp (1 / 5) _ _ eval_serUp
    ⟨1, 1, 1, 1, 130, 130, 0⟩ (by simp)⟩

/-- Claim C10: every emitted regime (bull or bear) has `start_idx ≥ 1`;
index 0, the first sample, is contained in no regime. -/
theorem c10_first_sample_excluded (series : List Sample) (th : ℚ) (b r : List Regime)
    (hEq : identify_market_phases series th = some (b, r)) :
    ∀ g ∈ b ++ r, 1 ≤ g.start_idx ∧ ¬(g.start_idx ≤ 0 ∧ 0 ≤ g.end_idx) := by
  obtain ⟨h, hb, hr, H⟩ := phases_hist series th b r hEq
  have key : ∀ g ∈ b ++ r, 1 ≤ g.start_idx := by
    intro g hg
    rcases List.mem_append.1 hg with hg2 | hg2
    · obtain ⟨e, he, _, hee⟩ := mem_bullsOf (hb ▸ hg2)
      rw [← hee]
      exact (H.wf e he).1
    · obtain ⟨e, he, _, hee⟩ := mem_bearsOf (hr ▸ hg2)
      rw [← hee]
      exact (H.wf e he).1
  intro g hg
  refine ⟨key g hg, fun hx => ?_⟩
  exact absurd (le_trans (key g hg) hx.1) (by decide)

/-- Claim C10 witness at a concrete input. -/
theorem c10_witness :
    identify_market_phases serUp (1 / 5) = some ([⟨1, 1, 1, 1, 130, 130, 0⟩], []) ∧
    (1 ≤ (1 : Nat) ∧ ¬((1 : Nat) ≤ 0 ∧ (0 : Nat) ≤ 1)) :=
  ⟨eval_serUp, c10_first_sample_excluded serUp (1 / 5) _ _ eval_serUp
    ⟨1, 1, 1, 1, 130, 130, 0⟩ (by simp)⟩

/-- Claim C3, amended: the running peak (trough) while a regime is open
is an upper (lower) bound of all prices since the regime began, so every
emitted bull regime's `ref_after` is ≥ every price over its samples and
every bear regime's `ref_after` is ≤ every price over its samples.
Equality with the extremum over the samples can fail, because the peak
is reset only on bear entry and the trough only on bull entry, so a
stale extremum can carry over from before the regime
(see the counterexample). -/
theorem c3_ref_after_bounds (series : List Sample) (th : ℚ) (b r : List Regime)
    (hEq : identify_market_phases series th = some (b, r)) :
    (∀ g ∈ b, ∀ j, g.start_idx ≤ j → j ≤ g.end_idx → priceAt series j ≤ g.ref_after) ∧
    (∀ g ∈ r, ∀ j, g.start_idx ≤ j → j ≤ g.end_idx → g.ref_after ≤ priceAt series j) := by
  obtain ⟨h, hb, hr, H⟩ := phases_hist series th b r hEq
  constructor
  · intro g hg j hj1 hj2
    obtain ⟨e, he, het, hee⟩ := mem_bullsOf (hb ▸ hg)
    subst hee
    exact (H.extr e he j hj1 hj2).1 het
  · intro g hg j hj1 hj2
    obtain ⟨e, he, het, hee⟩ := mem_bearsOf (hr ▸ hg)
    subst hee
    exact (H.extr e he j hj1 hj2).2 het

/-- Claim C3, counterexample: on `serCarry` the emitted bull regime
spans samples [3, 3], whose maximum price is 65, yet its `ref_after`
is 80 — the stale peak carried over from before the regime.  So the
reference price is not the extremum over the regime's samples. -/
theorem c3_counterexample :
    identify_market_phases serCarry (1 / 5) =
      some ([⟨3, 3, 3, 3, 65, 80, 3 / 13⟩], [⟨1, 2, 1, 2, 80, 50, -(3 / 8)⟩]) ∧
    priceAt serCarry 3 = 65 ∧ ((80 : ℚ) = 65 → False) :=
  ⟨eval_serCarry, rfl, by norm_num⟩

/-- Claim C3 witness at a concrete input. -/
theorem c3_witness :
    identify_market_phases serUp (1 / 5) = some ([⟨1, 1, 1, 1, 130, 130, 0⟩], []) ∧
    priceAt serUp 1 ≤ (130 : ℚ) :=
  ⟨eval_serUp, (c3_ref_after_bounds serUp (1 / 5) _ _ eval_serUp).1
    ⟨1, 1, 1, 1, 130, 130, 0⟩ (by simp) 1 le_rfl le_rfl⟩

/-- Claim C6: every emitted bull regime's `percent_move` is
`(ref_after - ref_before) / ref_before` — i.e. `(peak - trough)/trough`
in terms of its emitted reference prices — and is ≥ 0; every bear
regime's is `(trough - peak)/peak` (the same formula in terms of
`ref_before = peak`, `ref_after = trough`) and is ≤ 0.  Positivity of
the prices is the spec's input invariant. -/
theorem c6_percent_move (series : List Sample) (th : ℚ) (b r : List Regime)
    (hpos : ∀ smp ∈ series, 0 < smp.price)
    (hEq : identify_market_phases series th = some (b, r)) :
    (∀ g ∈ b, g.percent_move = (g.ref_after - g.ref_before) / g.ref_before ∧
      g.ref_before ≤ g.ref_after ∧ 0 ≤ g.percent_move) ∧
    (∀ g ∈ r, g.percent_move = (g.ref_after - g.ref_before) / g.ref_before ∧
      g.ref_after ≤ g.ref_before ∧ g.percent_move ≤ 0) := by
  obtain ⟨h, hb, hr, H⟩ := phases_hist series th b r hEq
  have hlen : 0 < series.length := length_pos_of_some hEq
  have hbpos : ∀ e ∈ h, 0 < e.2.ref_before := by
    intro e he
    rw [H.refb e he]
    refine priceAt_pos hpos ?_
    exact lt_of_le_of_lt (le_trans (H.wf e he).2.1 (H.wf e he).2.2)
      (Nat.sub_lt hlen one_pos)
  constructor
  · intro g hg
    obtain ⟨e, he, het, hee⟩ := mem_bullsOf (hb ▸ hg)
    subst hee
    have hm := (H.mono e he).1 het
    refine ⟨H.pm e he, hm, ?_⟩
    rw [H.pm e he]
    exact div_nonneg (sub_nonneg.2 hm) (hbpos e he).le
  · intro g hg
    obtain ⟨e, he, het, hee⟩ := mem_bearsOf (hr ▸ hg)
    subst hee
    have hm := (H.mono e he).2 het
    refine ⟨H.pm e he, hm, ?_⟩
    rw [H.pm e he]
    exact div_nonpos_of_nonpos_of_nonneg (sub_nonpos.2 hm) (hbpos e he).le

/-- Claim C6 witness at a concrete input. -/
theorem c6_witness :
    (∀ smp ∈ serUp, 0 < smp.price) ∧
    ((0 : ℚ) = (130 - 130) / 130 ∧ (130 : ℚ) ≤ 130 ∧ (0 : ℚ) ≤ 0) :=
  ⟨by decide,
   (c6_percent_move serUp (1 / 5) _ _ (by decide) eval_serUp).1
     ⟨1, 1, 1, 1, 130, 130, 0⟩ (by simp)⟩

/-- Claim C4: regimes in each returned list are sorted and pairwise
non-overlapping (consecutive ones satisfy `end_idx < start_idx`), also
sorted by start time when timestamps strictly increase; all regimes
across both lists are pairwise disjoint, so every sample index belongs
to at most one regime; and there is a single chronological emission
history, sorted by start index, whose bull/bear filters are exactly the
two lists and whose kinds strictly alternate — the merge of the two
lists by start order alternates bull/bear. -/
theorem c4_ordered (series : List Sample) (th : ℚ) (b r : List Regime)
    (hEq : identify_market_phases series th = some (b, r))
    (hts : ∀ j, j < series.length → ∀ i, i < j → tsAt series i < tsAt series j) :
    (b.Pairwise fun x y => x.end_idx < y.start_idx) ∧
    (r.Pairwise fun x y => x.end_idx < y.start_idx) ∧
    (b.Pairwise fun x y => x.start_time < y.start_time) ∧
    (r.Pairwise fun x y => x.start_time < y.start_time) ∧
    ((b ++ r).Pairwise fun x y => x.end_idx < y.start_idx ∨ y.end_idx < x.start_idx) ∧
    ∃ h : List (Bool × Regime), b = bullsOf h ∧ r = bearsOf h ∧
      (h.Pairwise fun x y => x.2.end_idx < y.2.start_idx) ∧
      (h.Chain' fun x y => x.1 ≠ y.1) := by
  obtain ⟨h, hb, hr, H⟩ := phases_hist series th b r hEq
  have hlen : 0 < series.length := length_pos_of_some hEq
  have hsortb : (bullsOf h).Pairwise fun x y => x.end_idx < y.start_idx :=
    List.pairwise_map.2 (H.sorted.filter _)
  have hsortr : (bearsOf h).Pairwise fun x y => x.end_idx < y.start_idx :=
    List.pairwise_map.2 (H.sorted.filter _)
  have hwf : ∀ g ∈ b ++ r, (1 ≤ g.start_idx ∧ g.start_idx ≤ g.end_idx ∧
      g.end_idx ≤ series.length - 1) ∧ g.start_time = tsAt series g.start_idx := by
    intro g hg
    rcases List.mem_append.1 hg with hg2 | hg2
    · obtain ⟨e, he, _, hee⟩ := mem_bullsOf (hb ▸ hg2)
      subst hee
      exact ⟨H.wf e he, (H.tms e he).1⟩
    · obtain ⟨e, he, _, hee⟩ := mem_bearsOf (hr ▸ hg2)
      subst hee
      exact ⟨H.wf e he, (H.tms e he).1⟩
  have timeOf : ∀ L : List Regime, (∀ g ∈ L, g ∈ b ++ r) →
      (L.Pairwise fun x y => x.end_idx < y.start_idx) →
      L.Pairwise fun x y => x.start_time < y.start_time := by
    intro L hsub hL
    refine List.Pairwise.imp_of_mem ?_ hL
    intro x y hx hy hxy
    obtain ⟨hwx, htx⟩ := hwf x (hsub x hx)
    obtain ⟨hwy, hty⟩ := hwf y (hsub y hy)
    rw [htx, hty]
    have hylt : y.start_idx < series.length :=
      lt_of_le_of_lt (le_trans hwy.2.1 hwy.2.2) (Nat.sub_lt hlen one_pos)
    exact hts y.start_idx hylt x.start_idx (lt_of_le_of_lt hwx.2.1 hxy)
  have hdh : h.Pairwise fun x y =>
      x.2.end_idx < y.2.start_idx ∨ y.2.end_idx < x.2.start_idx :=
    H.sorted.imp fun hxy => Or.inl hxy
  have hperm := List.filter_append_perm (fun e : Bool × Regime => e.1) h
  have hdapp := (hperm.pairwise_iff fun hx => Or.symm hx).2 hdh
  have hcross : (b ++ r).Pairwise fun x y =>
      x.end_idx < y.start_idx ∨ y.end_idx < x.start_idx := by
    rw [hb, hr, bullsOf, bearsOf, ← List.map_append]
    exact List.pairwise_map.2 hdapp
  exact ⟨hb.symm ▸ hsortb, hr.symm ▸ hsortr,
    timeOf b (fun g hg => List.mem_append.2 (Or.inl hg)) (hb.symm ▸ hsortb),
    timeOf r (fun g hg => List.mem_append.2 (Or.inr hg)) (hr.symm ▸ hsortr),
    hcross, h, hb, hr, H.sorted, H.alt⟩

/-- Claim C4 witness at a concrete input. -/
theorem c4_witness :
    identify_market_phases serUpDown (1 / 5) =
      some ([⟨1, 1, 1, 1, 121, 121, 0⟩], [⟨2, 2, 2, 2, 95, 95, 0⟩]) ∧
    (∀ j, j < serUpDown.length → ∀ i, i < j → tsAt serUpDown i < tsAt serUpDown j) ∧
    (([⟨1, 1, 1, 1, 121, 121, 0⟩] ++ [⟨2, 2, 2, 2, 95, 95, 0⟩] : List Regime).Pairwise
      fun x y => x.end_idx < y.start_idx ∨ y.end_idx < x.start_idx) :=
  ⟨eval_serUpDown, by decide,
   (c4_ordered serUpDown (1 / 5) _ _ eval_serUpDown (by decide)).2.2.2.2.1⟩

/-- Claim C5: for every state with at most one of the two booleans set
(the only reachable states; the spec's mode is three-valued) and every
sample index `i ≥ 1`, the code's loop body coincides, through the mode
correspondence `absState`, with the spec's transition rules: rule 1
(bull entry) before rule 2 (bear entry), both reading the peak/trough
held at the start of the step, and the extremum update applied
afterwards regardless of whether a transition fired. -/
theorem c5_step_refines_spec (ser : List Sample) (th : ℚ) (s : PhaseState) (i : Nat)
    (hex : ¬(s.in_bull = true ∧ s.in_bear = true)) ( _hi : 1 ≤ i) :
    absState (step ser th s i) = specStep ser th (absState s) i := by
  by_cases hbull : s.in_bull = true
  · have hbear : s.in_bear = false := by
      cases hbe : s.in_bear
      · rfl
      · exact absurd ⟨hbull, hbe⟩ hex
    by_cases hcond : priceAt ser i ≤ s.peak * (1 - th)
    · rw [step_bear_from_bull ser th i s hbull hbear hcond]
      by_cases hc2 : priceAt ser i < s.trough <;>
        simp [specStep, absState, hbull, hbear, hcond, hc2, bullRegime]
    · rw [step_stay_bull ser th i s hbull hbear hcond]
      by_cases hc2 : s.peak < priceAt ser i <;>
        simp [specStep, absState, hbull, hbear, hcond, hc2]
  · have hbf : s.in_bull = false := by
      cases hb2 : s.in_bull
      · rfl
      · exact absurd hb2 hbull
    by_cases hbear : s.in_bear = true
    · by_cases hcond : s.trough * (1 + th) ≤ priceAt ser i
      · rw [step_bull_from_bear ser th i s hbf hbear hcond]
        by_cases hc2 : s.peak < priceAt ser i <;>
          simp [specStep, absState, hbf, hbear, hcond, hc2, bearRegime]
      · rw [step_stay_bear ser th i s hbf hbear hcond]
        by_cases hc2 : priceAt ser i < s.trough <;>
          simp [specStep, absState, hbf, hbear, hcond, hc2]
    · have hbef : s.in_bear = false := by
        cases hb2 : s.in_bear
        · rfl
        · exact absurd hb2 hbear
      by_cases hcond : s.trough * (1 + th) ≤ priceAt ser i
      · rw [step_bull_from_none ser th i s hbf hbef hcond]
        by_cases hc2 : s.peak < priceAt ser i <;>
          simp [specStep, absState, hbf, hbef, hcond, hc2]
      · by_cases hcond2 : priceAt ser i ≤ s.peak * (1 - th)
        · rw [step_bear_from_none ser th i s hbf hbef hcond hcond2]
          by_cases hc2 : priceAt ser i < s.trough <;>
            simp [specStep, absState, hbf, hbef, hcond, hcond2, hc2]
        · rw [step_stay_none ser th i s hbf hbef hcond hcond2]
          simp [specStep, absState, hbf, hbef, hcond, hcond2]

/-- Claim C5 witness at a concrete state and sample. -/
theorem c5_witness :
    (¬((false : Bool) = true ∧ (false : Bool) = true)) ∧ (1 : Nat) ≤ 1 ∧
    absState (step serUp (1 / 5) ⟨[], [], false, false, 0, 100, 100⟩ 1) =
      specStep serUp (1 / 5) (absState ⟨[], [], false, false, 0, 100, 100⟩) 1 :=
  ⟨by decide, le_rfl,
   c5_step_refines_spec serUp (1 / 5) ⟨[], [], false, false, 0, 100, 100⟩ 1
     (by decide) le_rfl⟩

/-- Claim C7: a non-empty series with fewer than two samples yields two
empty lists, and so does any series whose prices stay strictly inside
the threshold band around the first price (so neither trigger ever
fires): a degenerate result, not a failure. -/
theorem c7_degenerate (series : List Sample) (th : ℚ) :
    (series ≠ [] → series.length ≤ 1 →
      identify_market_phases series th = some ([], [])) ∧
    (∀ s0 rest, series = s0 :: rest →
      (∀ i, i < series.length → 1 ≤ i →
        s0.price * (1 - th) < priceAt series i ∧
        priceAt series i < s0.price * (1 + th)) →
      identify_market_phases series th = some ([], [])) := by
  constructor
  · intro hne hlen
    match series, hne with
    | s0 :: rest, _ =>
      have hr : rest = [] := by
        cases rest
        · rfl
        · simp at hlen
      subst hr
      rfl
  · rintro s0 rest rfl hband
    have hfix : scanLen (s0 :: rest) th s0 rest.length = initState s0 := by
      apply foldl_fixed
      intro i hi
      obtain ⟨hi1, hi2⟩ := List.mem_range'_1.1 hi
      have hb := hband i (by simpa [Nat.add_comm] using hi2) hi1
      exact step_stay_none (s0 :: rest) th i (initState s0) rfl rfl
        (not_le.2 hb.2) (not_le.2 hb.1)
    show some (finalize (s0 :: rest) (scanLen (s0 :: rest) th s0 rest.length)) = _
    rw [hfix]
    rfl

/-- Claim C7 witness: the one-sample series and the flat scenario
`[100, 100, 100]` with threshold 0.2. -/
theorem c7_witness :
    serOne ≠ [] ∧ serOne.length ≤ 1 ∧
    identify_market_phases serOne (1 / 5) = some ([], []) ∧
    identify_market_phases serFlat (1 / 5) = some ([], []) :=
  ⟨by decide, by decide,
   (c7_degenerate serOne (1 / 5)).1 (by decide) (by decide),
   (c7_degenerate serFlat (1 / 5)).2 ⟨0, 100⟩ [⟨1, 100⟩, ⟨2, 100⟩] rfl
     (by
       intro i hi h1
       have hi3 : i < 3 := by simpa [serFlat] using hi
       interval_cases i <;> norm_num [serFlat, priceAt, List.getD])⟩

/-- Claim C8: the segmenter is a pure function of its two arguments —
two invocations on identical inputs give identical outputs (there is no
other state for the embedded function to depend on). -/
theorem c8_deterministic (series : List Sample) (th : ℚ) :
    identify_market_phases series th = identify_market_phases series th := rfl

/-- Claim C1, amended: the code performs no input validation.  Only the
empty series fails (the out-of-range read of the first sample, before
any sample is processed); every non-empty series — including any
non-positive threshold and any non-monotonic timestamps — is scanned
and produces a result. -/
theorem c1_no_validation (series : List Sample) (th : ℚ) :
    (series = [] → identify_market_phases series th = none) ∧
    (series ≠ [] → (identify_market_phases series th).isSome = true) := by
  constructor
  · rintro rfl
    rfl
  · intro hne
    match series, hne with
    | s0 :: rest, _ => rfl

/-- Claim C1, counterexample: threshold 0 (hence ≤ 0) on a valid flat
series, and a series with strictly decreasing timestamps, are both
accepted: the scan runs to completion and returns a bull regime instead
of failing with any invalid-input error. -/
theorem c1_counterexample :
    identify_market_phases serFlat0 0 =
      some ([⟨1, 1, 1, 1, 100, 100, 0⟩], []) ∧
    identify_market_phases serBackTs (1 / 5) =
      some ([⟨1, 1, 3, 3, 130, 130, 0⟩], []) :=
  ⟨eval_serFlat0, eval_serBackTs⟩

/-- Claim C1 witness for the amended statement. -/
theorem c1_witness :
    (([] : List Sample) = [] ∧ identify_market_phases [] (1 / 5) = none) ∧
    (serOne ≠ [] ∧ (identify_market_phases serOne (1 / 5)).isSome = true) :=
  ⟨⟨rfl, (c1_no_validation [] (1 / 5)).1 rfl⟩,
   ⟨by decide, (c1_no_validation serOne (1 / 5)).2 (by decide)⟩⟩

/-- Claim C2, amended: on values `[100, 121, 121]` with threshold 0.2
the code returns exactly one bull regime and no bear regime, but the
regime's `start_idx` is 1 (the index where the threshold was met; the
trough is reset there to the entry price 121) and its `percent_move`
is 0, not 0.21. -/
theorem c2_amended :
    identify_market_phases serJump (1 / 5) =
      some ([⟨1, 2, 1, 2, 121, 121, 0⟩], []) :=
  eval_serJump

/-- Claim C2, counterexample: there is no run of the code on
`[100, 121, 121]` with threshold 0.2 returning a single bull regime
with `start_idx = 0` — the regime actually starts at index 1 (and its
`percent_move` is 0, not ≈ 0.21). -/
theorem c2_counterexample :
    ¬ ∃ g : Regime, identify_market_phases serJump (1 / 5) = some ([g], []) ∧
      g.start_idx = 0 := by
  rintro ⟨g, hg, hg0⟩
  have h2 := Option.some.inj (eval_serJump.symm.trans hg)
  have h3 : (⟨1, 2, 1, 2, 121, 121, 0⟩ : Regime) = g := by
    have h4 := congrArg Prod.fst h2
    simpa using h4
  subst h3
  exact absurd hg0 (by decide)

end BrentPhases
